import Mathlib

/-!
Shallow embedding of the R_t estimation pipeline in `restimator.py`
(ResearchLuxembourg/Covid-19): data preparation (`prepare_cases`),
highest-density-interval extraction (`highest_density_interval`), and the
sequential Bayesian filter (`get_posteriors`), together with theorems
settling the specification claims about them.
-/

namespace Restimator

/-! ## Part 1: `prepare_cases`

The Python source:
```
def prepare_cases(cases, cutoff=25):
    new_cases = cases.diff()
    if new_cases.any() < 0:
        raise ValueError(...)
    smoothed = new_cases.rolling(7, min_periods=1, center=False).mean().round()
    smoothed = smoothed.iloc[idx_start:]
    original = new_cases.loc[smoothed.index]
    return original, smoothed
```
`cases.diff()` yields NaN at position 0 and `cases[t] - cases[t-1]` at
position `t ≥ 1`; we model the defined differences as a list `diffList`
(entry `k` is the difference at series position `k+1`).  The rolling mean
with `min_periods=1` skips the NaN head, so the window feeding series
position `t` is the slice of `diffList` from `t - 7` (truncated at 0) up
to `t - 1`.  `.round()` is numpy round-half-to-even.  `idx_start` is the
module-level constant 22.

The guard `new_cases.any() < 0` compares the *boolean* result of
`Series.any()` (does any entry differ from zero?) with 0, which in Python
coerces the boolean to 0 or 1; we embed that coercion faithfully. -/

/-- Module-level warm-up trim constant (`idx_start = 22` in the source). -/
def idx_start : ℕ := 22

/-- The defined first differences of a cumulative series: entry `k` is
`cases[k+1] - cases[k]` (position `k+1` of `cases.diff()`, whose position
0 is NaN). -/
def diffList (cases : List ℤ) : List ℤ :=
  List.zipWith (fun a b => a - b) (cases.drop 1) cases

/-- numpy round-half-to-even, as applied by `Series.round()`. -/
def roundHalfEven (q : ℚ) : ℤ :=
  let f : ℤ := ⌊q⌋
  let frac : ℚ := q - f
  if frac < 1/2 then f
  else if 1/2 < frac then f + 1
  else if f % 2 = 0 then f else f + 1

/-- The rolling-mean window feeding series position `t`: the entries of
`cases.diff()` at positions `max 1 (t-6) .. t`, i.e. entries
`t-7 .. t-1` of `diffList` (NaN at position 0 is skipped by pandas;
`min_periods=1`).  Mean over however many entries the window holds. -/
def windowMean (d : List ℤ) (t : ℕ) : ℚ :=
  let win := (d.drop (t - 7)).take (t - (t - 7))
  ((win.map (fun x => (x : ℚ))).sum) / (win.length : ℚ)

/-- The smoothed series after the `iloc[idx_start:]` trim: one entry per
series position `t ∈ [idx_start, cases.length)`. -/
def smoothedTrimmed (cases : List ℤ) : List ℤ :=
  ((List.range cases.length).drop idx_start).map
    (fun t => roundHalfEven (windowMean (diffList cases) t))

/-- Entries `new_cases.loc[smoothed.index]`: the raw differences restricted to the
same trimmed positions (`diffList` entries from `idx_start - 1` on). -/
def originalTrimmed (cases : List ℤ) : List ℤ :=
  (diffList cases).drop (idx_start - 1)

/-- Python truthiness of `Series.any()` over the differences (NaN skipped):
does any defined difference differ from zero? -/
def anyDiffNonzero (d : List ℤ) : Bool :=
  d.any (fun x => decide (x ≠ 0))

/-- Python coercion of a `bool` to an integer, as happens in `bool < 0`. -/
def pythonBoolToInt (b : Bool) : ℤ :=
  if b then 1 else 0

/-- Embedding of `prepare_cases`, faithfully including the guard
`if new_cases.any() < 0: raise`: `none` models the raised `ValueError`. -/
def prepare_cases (cases : List ℤ) : Option (List ℤ × List ℤ) :=
  if pythonBoolToInt (anyDiffNonzero (diffList cases)) < 0 then none
  else some (originalTrimmed cases, smoothedTrimmed cases)

/-! ## Part 2: `highest_density_interval`

The Python source (single-Series branch):
```
cumsum = np.cumsum(pmf.values)
total_p = cumsum - cumsum[:, None]     # total_p[i][j] = cumsum[j] - cumsum[i]
lows, highs = (total_p > p).nonzero()  # row-major enumeration: i = low, j = high
best = (highs - lows).argmin()         # first index attaining the minimum
low = pmf.index[lows[best]]
high = pmf.index[highs[best]]
```
We embed the PMF as a list of values `vals` with an index list `idx`
(the grid).  `nonzero` enumerates qualifying `(i, j)` pairs in row-major
order; `argmin` returns the first pair of minimal `j - i` (an integer,
possibly negative).  `argmin` of an empty selection raises; `none` models
that failure. -/

/-- Inclusive prefix sums: `cumsum vals` has the same length as `vals` and
entry `j` equal to the sum of entries `0..j` of `vals`. -/
def cumsum (vals : List ℚ) : List ℚ :=
  (List.range vals.length).map (fun j => (vals.take (j + 1)).sum)

/-- All index pairs `(i, j)` of an `n × n` matrix in row-major order, the
order in which `numpy.nonzero` enumerates them. -/
def pairsRowMajor (n : ℕ) : List (ℕ × ℕ) :=
  (List.range n).flatMap (fun i => (List.range n).map (fun j => (i, j)))

/-- Strict lexicographic order on index pairs: the row-major enumeration
order of `pairsRowMajor`. -/
def lexLT (a b : ℕ × ℕ) : Prop :=
  a.1 < b.1 ∨ (a.1 = b.1 ∧ a.2 < b.2)

/-- The span mass `total_p[i][j] = cumsum[j] - cumsum[i]` of the source. -/
def spanMass (cs : List ℚ) (i j : ℕ) : ℚ :=
  cs.getD j 0 - cs.getD i 0

/-- The qualifying pairs `(total_p > p).nonzero()`, in row-major order. -/
def qualifying (cs : List ℚ) (p : ℚ) (n : ℕ) : List (ℕ × ℕ) :=
  (pairsRowMajor n).filter (fun ij => decide (p < spanMass cs ij.1 ij.2))

/-- The signed interval width `highs - lows` minimized by `argmin`. -/
def width (ij : ℕ × ℕ) : ℤ :=
  (ij.2 : ℤ) - (ij.1 : ℤ)

/-- numpy `argmin` with its tie-break: the first element of the list
attaining the minimal value of `f`; `none` on the empty list (numpy
`argmin` raises there). -/
def argminFirst (f : ℕ × ℕ → ℤ) : List (ℕ × ℕ) → Option (ℕ × ℕ)
  | [] => none
  | x :: xs =>
    match argminFirst f xs with
    | none => some x
    | some y => if f y < f x then some y else some x

/-- The index pair `(lows[best], highs[best])` selected by the source. -/
def hdiIndices (vals : List ℚ) (p : ℚ) : Option (ℕ × ℕ) :=
  argminFirst width (qualifying (cumsum vals) p vals.length)

/-- Embedding of `highest_density_interval` on a single PMF: the index (grid) values at
the selected pair; `none` models the `argmin`-of-empty failure. -/
def highest_density_interval (idx : List ℚ) (vals : List ℚ) (p : ℚ) :
    Option (ℚ × ℚ) :=
  (hdiIndices vals p).map (fun ij => (idx.getD ij.1 0, idx.getD ij.2 0))

/-- Entry `i` of `np.linspace(0, 10, 1001)`: the value `i * 10 / 1000`. -/
def gridVal (i : ℕ) : ℚ :=
  (i : ℚ) * 10 / 1000

/-- The grid `r_t_range = np.linspace(0, 10, 1001)` as rational index
values: entry `i` is `gridVal i = i * 10 / 1000`. -/
def gridListQ : List ℚ :=
  (List.range 1001).map gridVal

/-- A point-mass PMF over the 1001-point grid: probability 1 at grid
index `k`, 0 elsewhere (for `k ≤ 1000`). -/
def pointMassV (k : ℕ) : List ℚ :=
  List.replicate k 0 ++ 1 :: List.replicate (1000 - k) 0

/-! ## Helper lemmas: `argminFirst` -/

theorem argminFirst_eq_none {f : ℕ × ℕ → ℤ} {l : List (ℕ × ℕ)} :
    argminFirst f l = none ↔ l = [] := by
  cases l with
  | nil => simp [argminFirst]
  | cons x xs =>
    simp only [argminFirst]
    constructor
    · intro h
      cases hx : argminFirst f xs <;> rw [hx] at h <;> simp at h
      split at h <;> simp at h
    · intro h
      exact absurd h (List.cons_ne_nil x xs)

theorem argminFirst_mem {f : ℕ × ℕ → ℤ} {l : List (ℕ × ℕ)} {a : ℕ × ℕ}
    (h : argminFirst f l = some a) : a ∈ l := by
  induction l generalizing a with
  | nil => simp [argminFirst] at h
  | cons x xs ih =>
    rw [argminFirst] at h
    cases hx : argminFirst f xs with
    | none =>
      rw [hx] at h
      simp at h
      simp [h]
    | some y =>
      rw [hx] at h
      by_cases hyx : f y < f x
      · simp only [hyx, if_true] at h
        simp at h
        exact List.mem_cons_of_mem x (h ▸ ih hx)
      · simp only [hyx, if_false] at h
        simp at h
        simp [h]

theorem argminFirst_min {f : ℕ × ℕ → ℤ} {l : List (ℕ × ℕ)} {a : ℕ × ℕ}
    (h : argminFirst f l = some a) : ∀ b ∈ l, f a ≤ f b := by
  induction l generalizing a with
  | nil => simp [argminFirst] at h
  | cons x xs ih =>
    rw [argminFirst] at h
    intro b hb
    cases hx : argminFirst f xs with
    | none =>
      rw [hx] at h
      simp at h
      subst h
      rcases List.mem_cons.mp hb with hb | hb
      · exact le_of_eq (congrArg f hb.symm)
      · rw [argminFirst_eq_none.mp hx] at hb
        exact absurd hb (List.not_mem_nil b)
    | some y =>
      rw [hx] at h
      by_cases hyx : f y < f x
      · simp only [hyx, if_true] at h
        simp at h
        subst h
        rcases List.mem_cons.mp hb with hb | hb
        · exact hb ▸ le_of_lt hyx
        · exact ih hx b hb
      · simp only [hyx, if_false] at h
        simp at h
        subst h
        rcases List.mem_cons.mp hb with hb | hb
        · exact le_of_eq (congrArg f hb.symm)
        · exact le_trans (le_of_not_lt hyx) (ih hx b hb)

theorem argminFirst_first {f : ℕ × ℕ → ℤ} {l : List (ℕ × ℕ)} {a : ℕ × ℕ}
    (h : argminFirst f l = some a) :
    ∃ l1 l2, l = l1 ++ a :: l2 ∧ ∀ b ∈ l1, f a < f b := by
  induction l generalizing a with
  | nil => simp [argminFirst] at h
  | cons x xs ih =>
    rw [argminFirst] at h
    cases hx : argminFirst f xs with
    | none =>
      rw [hx] at h
      simp at h
      subst h
      exact ⟨[], xs, rfl, by simp⟩
    | some y =>
      rw [hx] at h
      by_cases hyx : f y < f x
      · simp only [hyx, if_true] at h
        simp at h
        subst h
        obtain ⟨l1, l2, hl, hlt⟩ := ih hx
        refine ⟨x :: l1, l2, by simp [hl], ?_⟩
        intro b hb
        rcases List.mem_cons.mp hb with hb | hb
        · exact hb ▸ hyx
        · exact hlt b hb
      · simp only [hyx, if_false] at h
        simp at h
        subst h
        exact ⟨[], xs, rfl, by simp⟩

theorem argminFirst_isSome {f : ℕ × ℕ → ℤ} {l : List (ℕ × ℕ)}
    (h : l ≠ []) : ∃ a, argminFirst f l = some a := by
  cases ha : argminFirst f l with
  | none => exact absurd (argminFirst_eq_none.mp ha) h
  | some a => exact ⟨a, rfl⟩

/-- On a `lexLT`-sorted list, `argminFirst` returns the lexicographically
first element among the minimizers of `f`. -/
theorem argminFirst_tiebreak {f : ℕ × ℕ → ℤ} {l : List (ℕ × ℕ)} {a : ℕ × ℕ}
    (hs : l.Pairwise lexLT) (h : argminFirst f l = some a) :
    ∀ b ∈ l, f b = f a → a = b ∨ lexLT a b := by
  obtain ⟨l1, l2, hl, hlt⟩ := argminFirst_first h
  subst hl
  intro b hb hfb
  rcases List.mem_append.mp hb with hb | hb
  · exact absurd hfb (ne_of_gt (hlt b hb))
  · rcases List.mem_cons.mp hb with hb | hb
    · exact Or.inl hb.symm
    · have h2 := (List.pairwise_append.mp hs).2.1
      exact Or.inr ((List.pairwise_cons.mp h2).1 b hb)

/-! ## Helper lemmas: the row-major enumeration -/

theorem mem_pairsRowMajor {n i j : ℕ} :
    (i, j) ∈ pairsRowMajor n ↔ i < n ∧ j < n := by
  simp only [pairsRowMajor, List.mem_flatMap, List.mem_map, List.mem_range]
  constructor
  · rintro ⟨b, hb, j', hj', hji⟩
    obtain ⟨hi, hj⟩ := Prod.mk.injEq .. ▸ hji
    exact ⟨hi ▸ hb, hj ▸ hj'⟩
  · rintro ⟨hi, hj⟩
    exact ⟨i, hi, j, hj, rfl⟩

theorem pairsRowMajor_pairwise (n : ℕ) : (pairsRowMajor n).Pairwise lexLT := by
  have haux : ∀ l : List ℕ, l.Pairwise (· < ·) →
      (l.flatMap (fun i => (List.range n).map (fun j => (i, j)))).Pairwise lexLT := by
    intro l hl
    induction l with
    | nil => simp
    | cons x xs ih =>
      rw [List.flatMap_cons, List.pairwise_append]
      obtain ⟨hx, hxs⟩ := List.pairwise_cons.mp hl
      refine ⟨?_, ih hxs, ?_⟩
      · rw [List.pairwise_map]
        exact (List.pairwise_lt_range n).imp (fun h => Or.inr ⟨rfl, h⟩)
      · intro a ha b hb
        obtain ⟨j, _, haj⟩ := List.mem_map.mp ha
        obtain ⟨i', hi', hbmem⟩ := List.mem_flatMap.mp hb
        obtain ⟨j', _, hbj⟩ := List.mem_map.mp hbmem
        subst haj hbj
        exact Or.inl (hx i' hi')
  exact haux (List.range n) (List.pairwise_lt_range n)

theorem qualifying_pairwise (cs : List ℚ) (p : ℚ) (n : ℕ) :
    (qualifying cs p n).Pairwise lexLT :=
  List.Pairwise.filter _ (pairsRowMajor_pairwise n)

theorem mem_qualifying {cs : List ℚ} {p : ℚ} {n i j : ℕ} :
    (i, j) ∈ qualifying cs p n ↔ i < n ∧ j < n ∧ p < spanMass cs i j := by
  simp only [qualifying, List.mem_filter, mem_pairsRowMajor, decide_eq_true_eq]
  tauto

theorem qualifying_eq_nil {cs : List ℚ} {p : ℚ} {n : ℕ}
    (h : ∀ i j, i < n → j < n → ¬ p < spanMass cs i j) :
    qualifying cs p n = [] := by
  rw [qualifying, List.filter_eq_nil_iff]
  rintro ⟨i, j⟩ hmem
  obtain ⟨hi, hj⟩ := mem_pairsRowMajor.mp hmem
  simpa using h i j hi hj

/-! ## Helper lemmas: `cumsum` -/

theorem cumsum_length (vals : List ℚ) : (cumsum vals).length = vals.length := by
  simp [cumsum]

theorem cumsum_getD {vals : List ℚ} {j : ℕ} (h : j < vals.length) :
    (cumsum vals).getD j 0 = (vals.take (j + 1)).sum := by
  rw [cumsum, List.getD_eq_getElem?_getD, List.getElem?_map,
    List.getElem?_eq_getElem (by simpa using h)]
  simp

theorem cumsum_getD_oob {vals : List ℚ} {j : ℕ} (h : vals.length ≤ j) :
    (cumsum vals).getD j 0 = 0 := by
  rw [List.getD_eq_getElem?_getD,
    List.getElem?_eq_none (by simpa [cumsum_length] using h)]
  rfl

theorem sum_take_nonneg {vals : List ℚ} (hnn : ∀ x ∈ vals, 0 ≤ x) (m : ℕ) :
    0 ≤ (vals.take m).sum :=
  List.sum_nonneg (fun x hx => hnn x (List.mem_of_mem_take hx))

theorem sum_take_le_sum_take {vals : List ℚ} (hnn : ∀ x ∈ vals, 0 ≤ x)
    {m n : ℕ} (hmn : m ≤ n) : (vals.take m).sum ≤ (vals.take n).sum := by
  have hsplit : vals.take n = vals.take m ++ (vals.take n).drop m := by
    conv_lhs => rw [← List.take_append_drop m (vals.take n)]
    rw [List.take_take, min_eq_left hmn]
  rw [hsplit, List.sum_append]
  have : 0 ≤ ((vals.take n).drop m).sum :=
    List.sum_nonneg (fun x hx =>
      hnn x (List.mem_of_mem_take (List.mem_of_mem_drop hx)))
  linarith

theorem sum_take_le_sum {vals : List ℚ} (hnn : ∀ x ∈ vals, 0 ≤ x) (m : ℕ) :
    (vals.take m).sum ≤ vals.sum := by
  conv_rhs => rw [← List.take_append_drop m vals]
  rw [List.sum_append]
  have : 0 ≤ (vals.drop m).sum :=
    List.sum_nonneg (fun x hx => hnn x (List.mem_of_mem_drop hx))
  linarith

theorem cumsum_getD_nonneg {vals : List ℚ} (hnn : ∀ x ∈ vals, 0 ≤ x) (j : ℕ) :
    0 ≤ (cumsum vals).getD j 0 := by
  by_cases h : j < vals.length
  · rw [cumsum_getD h]
    exact sum_take_nonneg hnn (j + 1)
  · rw [cumsum_getD_oob (le_of_not_lt h)]

theorem cumsum_getD_le_sum {vals : List ℚ} (hnn : ∀ x ∈ vals, 0 ≤ x) (j : ℕ) :
    (cumsum vals).getD j 0 ≤ vals.sum := by
  by_cases h : j < vals.length
  · rw [cumsum_getD h]
    exact sum_take_le_sum hnn (j + 1)
  · rw [cumsum_getD_oob (le_of_not_lt h)]
    exact List.sum_nonneg hnn

theorem cumsum_getD_mono {vals : List ℚ} (hnn : ∀ x ∈ vals, 0 ≤ x)
    {i j : ℕ} (hij : i ≤ j) (hj : j < vals.length) :
    (cumsum vals).getD i 0 ≤ (cumsum vals).getD j 0 := by
  rw [cumsum_getD hj, cumsum_getD (lt_of_le_of_lt hij hj)]
  exact sum_take_le_sum_take hnn (by omega)

/-- With a non-negative PMF and a positive coverage `p`, any qualifying
pair is strictly increasing: the source needs no explicit `low ≤ high`
restriction there. -/
theorem mem_qualifying_lt {vals : List ℚ} {p : ℚ} {i j : ℕ}
    (hnn : ∀ x ∈ vals, 0 ≤ x) (hp : 0 < p)
    (h : (i, j) ∈ qualifying (cumsum vals) p vals.length) : i < j := by
  obtain ⟨hi, hj, hm⟩ := mem_qualifying.mp h
  by_contra hij
  have : (cumsum vals).getD j 0 ≤ (cumsum vals).getD i 0 :=
    cumsum_getD_mono hnn (le_of_not_lt hij) hi
  rw [spanMass] at hm
  linarith

/-! ## Helper lemmas: the point-mass PMF and the grid -/

theorem pointMassV_length {k : ℕ} (h : k ≤ 1000) :
    (pointMassV k).length = 1001 := by
  simp [pointMassV]
  omega

theorem pointMassV_nonneg {k : ℕ} : ∀ x ∈ pointMassV k, 0 ≤ x := by
  intro x hx
  rcases List.mem_append.mp hx with hx | hx
  · rw [List.eq_of_mem_replicate hx]
  · rcases List.mem_cons.mp hx with hx | hx
    · rw [hx]
      norm_num
    · rw [List.eq_of_mem_replicate hx]

theorem pointMassV_sum {k : ℕ} : (pointMassV k).sum = 1 := by
  simp [pointMassV, List.sum_replicate]

theorem pointMassV_take_sum {k j : ℕ} :
    ((pointMassV k).take (j + 1)).sum = if k ≤ j then 1 else 0 := by
  rw [pointMassV, List.take_append_eq_append_take, List.sum_append,
    List.take_replicate, List.sum_replicate, List.length_replicate]
  by_cases h : k ≤ j
  · rw [if_pos h]
    have h1 : j + 1 - k = (j - k) + 1 := by omega
    rw [h1, List.take_succ_cons, List.sum_cons, List.take_replicate,
      List.sum_replicate]
    simp
  · rw [if_neg h]
    have h1 : j + 1 - k = 0 := by omega
    rw [h1]
    simp

theorem cumsum_pointMassV_getD {k j : ℕ} (hk : k ≤ 1000) (hj : j < 1001) :
    (cumsum (pointMassV k)).getD j 0 = if k ≤ j then 1 else 0 := by
  rw [cumsum_getD (by rw [pointMassV_length hk]; exact hj), pointMassV_take_sum]

theorem mem_qualifying_pointMassV {k i j : ℕ} {p : ℚ}
    (hk : k ≤ 1000) (hp0 : 0 ≤ p) (hp1 : p < 1) :
    (i, j) ∈ qualifying (cumsum (pointMassV k)) p ((pointMassV k).length) ↔
      i < k ∧ k ≤ j ∧ j < 1001 := by
  rw [mem_qualifying, pointMassV_length hk]
  constructor
  · rintro ⟨hi, hj, hm⟩
    rw [spanMass, cumsum_pointMassV_getD hk hj, cumsum_pointMassV_getD hk hi]
      at hm
    by_cases hkj : k ≤ j <;> by_cases hki : k ≤ i <;>
      simp [hkj, hki] at hm <;> first
      | (exact absurd hm (by linarith))
      | (exact ⟨by omega, hkj, hj⟩)
  · rintro ⟨hi, hj, hj1001⟩
    have hi1001 : i < 1001 := by omega
    refine ⟨hi1001, hj1001, ?_⟩
    rw [spanMass, cumsum_pointMassV_getD hk hj1001,
      cumsum_pointMassV_getD hk hi1001, if_pos hj, if_neg (by omega)]
    linarith

theorem hdiIndices_pointMassV {k : ℕ} {p : ℚ}
    (hk1 : 1 ≤ k) (hk : k ≤ 1000) (hp0 : 0 ≤ p) (hp1 : p < 1) :
    hdiIndices (pointMassV k) p = some (k - 1, k) := by
  have hmem : (k - 1, k) ∈ qualifying (cumsum (pointMassV k)) p
      ((pointMassV k).length) :=
    (mem_qualifying_pointMassV hk hp0 hp1).mpr ⟨by omega, le_refl k, by omega⟩
  obtain ⟨a, ha⟩ :=
    @argminFirst_isSome width _ (List.ne_nil_of_mem hmem)
  obtain ⟨i, j⟩ := a
  obtain ⟨hi, hj, hj1001⟩ :=
    (mem_qualifying_pointMassV hk hp0 hp1).mp (argminFirst_mem ha)
  have hmin := argminFirst_min ha (k - 1, k) hmem
  have hwk : width (k - 1, k) = 1 := by
    rw [width]
    simp only
    have : ((k - 1 : ℕ) : ℤ) = (k : ℤ) - 1 := by omega
    omega
  rw [hwk] at hmin
  have hij : i = k - 1 ∧ j = k := by
    rw [width] at hmin
    simp only at hmin
    omega
  rw [hdiIndices, ha, hij.1, hij.2]

theorem gridListQ_getD {i : ℕ} (h : i < 1001) :
    gridListQ.getD i 0 = (i : ℚ) * 10 / 1000 := by
  rw [gridListQ, List.getD_eq_getElem?_getD, List.getElem?_map,
    List.getElem?_eq_getElem (by simpa using h)]
  simp [gridVal]

theorem hdi_pointMassV {k : ℕ} {p : ℚ}
    (hk1 : 1 ≤ k) (hk : k ≤ 1000) (hp0 : 0 ≤ p) (hp1 : p < 1) :
    highest_density_interval gridListQ (pointMassV k) p =
      some (((k : ℚ) - 1) / 100, (k : ℚ) / 100) := by
  rw [highest_density_interval, hdiIndices_pointMassV hk1 hk hp0 hp1]
  simp only [Option.map_some']
  rw [gridListQ_getD (by omega), gridListQ_getD (by omega)]
  have hcast : ((k - 1 : ℕ) : ℚ) = (k : ℚ) - 1 := by
    rw [Nat.cast_sub hk1]
    norm_num
  rw [hcast]
  simp only [Option.some.injEq, Prod.mk.injEq]
  constructor <;> ring

/-! ## Claim theorems: C1, C4, C5, C6, C8 -/

/-- Claim C1 (code_bug): the spec says `prepare_cases` fails on any input
with a negative first difference, and the source comments agree, but the
guard `new_cases.any() < 0` compares a boolean with 0 and is always
false.  `prepare_cases` therefore never fails; in particular it succeeds
on the cumulative series `[0, 5, 3]`, whose differences `[5, -2]` contain
a negative entry. -/
theorem C1_prepare_never_fails :
    (∀ cases : List ℤ, (prepare_cases cases).isSome = true) ∧
      (diffList [0, 5, 3]).any (fun x => decide (x < 0)) = true ∧
      prepare_cases [0, 5, 3] = some ([], []) := by
  refine ⟨?_, by decide, by decide⟩
  intro cases
  rw [prepare_cases]
  cases h : anyDiffNonzero (diffList cases) <;> simp [pythonBoolToInt, h]

/-- Claim C4 (confirmed): for a non-negative PMF over the 1001-point grid
and a coverage `0 < p` for which some qualifying pair `lowIdx ≤ highIdx`
with span mass exceeding `p` exists, `highest_density_interval` returns
the grid values at a pair `(i, j)` with `i ≤ j`, span mass
`cumsum[j] - cumsum[i]` exceeding `p`, of minimal width `j - i` among all
qualifying pairs, first in row-major enumeration order among the equally
narrow ones. -/
theorem C4_hdi_correct (vals : List ℚ) (p : ℚ)
    (hlen : vals.length = 1001)
    (hnn : ∀ x ∈ vals, 0 ≤ x)
    (hp : 0 < p)
    (hex : ∃ i0 j0, i0 ≤ j0 ∧ j0 < 1001 ∧ p < spanMass (cumsum vals) i0 j0) :
    ∃ i j, hdiIndices vals p = some (i, j) ∧
      highest_density_interval gridListQ vals p =
        some (gridListQ.getD i 0, gridListQ.getD j 0) ∧
      i ≤ j ∧ j < 1001 ∧ p < spanMass (cumsum vals) i j ∧
      (∀ i' j', i' ≤ j' → j' < 1001 → p < spanMass (cumsum vals) i' j' →
        width (i, j) ≤ width (i', j')) ∧
      (∀ i' j', i' ≤ j' → j' < 1001 → p < spanMass (cumsum vals) i' j' →
        width (i', j') = width (i, j) → i ≤ i') := by
  obtain ⟨i0, j0, hij0, hj0, hm0⟩ := hex
  have hmem0 : (i0, j0) ∈ qualifying (cumsum vals) p vals.length :=
    mem_qualifying.mpr ⟨by omega, by omega, hm0⟩
  obtain ⟨a, ha⟩ := @argminFirst_isSome width _ (List.ne_nil_of_mem hmem0)
  obtain ⟨i, j⟩ := a
  have hmem := argminFirst_mem ha
  obtain ⟨hi, hj, hm⟩ := mem_qualifying.mp hmem
  have hij : i < j := mem_qualifying_lt hnn hp hmem
  refine ⟨i, j, ?_, ?_, le_of_lt hij, by omega, hm, ?_, ?_⟩
  · rw [hdiIndices]
    exact ha
  · rw [highest_density_interval, hdiIndices, ha]
    rfl
  · intro i' j' h1 h2 h3
    exact argminFirst_min ha (i', j')
      (mem_qualifying.mpr ⟨by omega, by omega, h3⟩)
  · intro i' j' h1 h2 h3 hw
    have hq := argminFirst_tiebreak (qualifying_pairwise _ _ _) ha (i', j')
      (mem_qualifying.mpr ⟨by omega, by omega, h3⟩) hw
    rcases hq with heq | hlex
    · rw [Prod.mk.injEq] at heq
      omega
    · rcases hlex with hlt | ⟨heq, _⟩
      · exact le_of_lt hlt
      · exact le_of_eq heq

/-- Witness for C4: the point mass at grid index 100 with coverage `1/2`
discharges all hypotheses. -/
theorem C4_hdi_correct_witness :
    (pointMassV 100).length = 1001 ∧ (0 : ℚ) < 1/2 ∧
      (∃ i j, hdiIndices (pointMassV 100) (1/2) = some (i, j) ∧
        highest_density_interval gridListQ (pointMassV 100) (1/2) =
          some (gridListQ.getD i 0, gridListQ.getD j 0) ∧
        i ≤ j ∧ j < 1001 ∧
        (1 : ℚ)/2 < spanMass (cumsum (pointMassV 100)) i j ∧
        (∀ i' j', i' ≤ j' → j' < 1001 →
          (1 : ℚ)/2 < spanMass (cumsum (pointMassV 100)) i' j' →
          width (i, j) ≤ width (i', j')) ∧
        (∀ i' j', i' ≤ j' → j' < 1001 →
          (1 : ℚ)/2 < spanMass (cumsum (pointMassV 100)) i' j' →
          width (i', j') = width (i, j) → i ≤ i')) := by
  refine ⟨pointMassV_length (by norm_num), by norm_num, ?_⟩
  refine C4_hdi_correct (pointMassV 100) (1/2) (pointMassV_length (by norm_num))
    pointMassV_nonneg (by norm_num) ⟨99, 100, by norm_num, by norm_num, ?_⟩
  rw [spanMass, cumsum_pointMassV_getD (by norm_num) (by norm_num),
    cumsum_pointMassV_getD (by norm_num) (by norm_num)]
  norm_num

/-- Claim C5 counterexample: for the point mass at grid index 100 (grid
value 1.0), `highest_density_interval` at `p = 0.5` returns
low = 0.99 and high = 1.0 — not low = high = 1.0 as the claim states. -/
theorem C5_counterexample :
    highest_density_interval gridListQ (pointMassV 100) (1/2) =
      some (99/100, 1) ∧ ((99 : ℚ)/100) ≠ 1 := by
  constructor
  · rw [@hdi_pointMassV 100 (1/2) (by norm_num) (by norm_num)
      (by norm_num) (by norm_num)]
    norm_num
  · norm_num

/-- Claim C5 amended: for a point mass at grid index `k` with
`1 ≤ k ≤ 1000`, `highest_density_interval` at `p = 0.5` returns
low = the grid value one step below the point mass and high = the grid
value at the point mass; for a point mass at grid index 0 no pair
qualifies and the call fails. -/
theorem C5_amended (k : ℕ) (hk1 : 1 ≤ k) (hk : k ≤ 1000) :
    highest_density_interval gridListQ (pointMassV k) (1/2) =
      some (((k : ℚ) - 1) / 100, (k : ℚ) / 100) ∧
    highest_density_interval gridListQ (pointMassV 0) (1/2) = none := by
  constructor
  · exact hdi_pointMassV hk1 hk (by norm_num) (by norm_num)
  · have hnil : qualifying (cumsum (pointMassV 0)) (1/2)
        ((pointMassV 0).length) = [] := by
      apply qualifying_eq_nil
      intro i j hi hj
      rw [pointMassV_length (by norm_num)] at hi hj
      rw [spanMass, cumsum_pointMassV_getD (by norm_num) hj,
        cumsum_pointMassV_getD (by norm_num) hi, if_pos (Nat.zero_le j),
        if_pos (Nat.zero_le i)]
      norm_num
    rw [highest_density_interval, hdiIndices, hnil]
    rfl

/-- Witness for the amended C5 at `k = 7`. -/
theorem C5_amended_witness :
    1 ≤ 7 ∧ 7 ≤ 1000 ∧
      (highest_density_interval gridListQ (pointMassV 7) (1/2) =
        some (((7 : ℚ) - 1) / 100, (7 : ℚ) / 100) ∧
      highest_density_interval gridListQ (pointMassV 0) (1/2) = none) :=
  ⟨by norm_num, by norm_num, C5_amended 7 (by norm_num) (by norm_num)⟩

/-- Claim C6 counterexample: the coverage `p = 0` is not in `(0, 1)`, yet
`highest_density_interval` does not fail there — it silently returns an
interval (the source never validates `p`). -/
theorem C6_counterexample :
    ¬ (0 < (0 : ℚ) ∧ (0 : ℚ) < 1) ∧
      highest_density_interval gridListQ (pointMassV 100) 0 =
        some (99/100, 1) := by
  constructor
  · rintro ⟨h, _⟩
    exact lt_irrefl 0 h
  · rw [@hdi_pointMassV 100 0 (by norm_num) (by norm_num)
      (le_refl 0) (by norm_num)]
    norm_num

/-- Claim C6 amended: `highest_density_interval` performs no validation of
`p`; it fails exactly when no index pair attains span mass exceeding `p`
(the `argmin`-of-empty failure).  In particular it fails whenever `p ≥ 1`
and the PMF is non-negative with total mass at most 1, while for `p ≤ 0`
it can silently return a value. -/
theorem C6_amended :
    (∀ (idx vals : List ℚ) (p : ℚ),
      (highest_density_interval idx vals p = none ↔
        qualifying (cumsum vals) p vals.length = [])) ∧
    (∀ (idx vals : List ℚ) (p : ℚ), (∀ x ∈ vals, 0 ≤ x) → vals.sum ≤ 1 →
      1 ≤ p → highest_density_interval idx vals p = none) := by
  have hnone : ∀ (idx vals : List ℚ) (p : ℚ),
      (highest_density_interval idx vals p = none ↔
        qualifying (cumsum vals) p vals.length = []) := by
    intro idx vals p
    rw [highest_density_interval, Option.map_eq_none', hdiIndices]
    exact argminFirst_eq_none
  refine ⟨hnone, ?_⟩
  intro idx vals p hnn hsum hp
  rw [hnone]
  apply qualifying_eq_nil
  intro i j hi hj
  rw [spanMass]
  have h1 := cumsum_getD_le_sum hnn j
  have h2 := cumsum_getD_nonneg hnn i
  intro hlt
  linarith

/-- Witness for the amended C6: `p = 1` with the point-mass PMF. -/
theorem C6_amended_witness :
    (∀ x ∈ pointMassV 100, 0 ≤ x) ∧ (pointMassV 100).sum ≤ 1 ∧
      (1 : ℚ) ≤ 1 ∧
      highest_density_interval gridListQ (pointMassV 100) 1 = none :=
  ⟨pointMassV_nonneg, le_of_eq pointMassV_sum, le_refl 1,
    C6_amended.2 gridListQ (pointMassV 100) 1 pointMassV_nonneg
      (le_of_eq pointMassV_sum) (le_refl 1)⟩

/-- Claim C8 (confirmed): for a fixed PMF over the grid and coverages
`0 < p1 ≤ p2 < 1` on which `highest_density_interval` succeeds, the width
`high - low` of the interval returned at `p2` is at least the width
returned at `p1`. -/
theorem C8_hdi_monotone (vals : List ℚ) (p1 p2 l1 h1 l2 h2 : ℚ)
    (hlen : vals.length = 1001) (hnn : ∀ x ∈ vals, 0 ≤ x)
    (hsum : vals.sum = 1)
    (hp1 : 0 < p1) (h12 : p1 ≤ p2) (hp2 : p2 < 1)
    (e1 : highest_density_interval gridListQ vals p1 = some (l1, h1))
    (e2 : highest_density_interval gridListQ vals p2 = some (l2, h2)) :
    h1 - l1 ≤ h2 - l2 := by
  cases hd1 : hdiIndices vals p1 with
  | none =>
    rw [highest_density_interval, hd1] at e1
    simp at e1
  | some a1 =>
    cases hd2 : hdiIndices vals p2 with
    | none =>
      rw [highest_density_interval, hd2] at e2
      simp at e2
    | some a2 =>
      obtain ⟨i1, j1⟩ := a1
      obtain ⟨i2, j2⟩ := a2
      rw [highest_density_interval, hd1] at e1
      simp only [Option.map_some', Option.some.injEq, Prod.mk.injEq] at e1
      obtain ⟨el1, eh1⟩ := e1
      rw [highest_density_interval, hd2] at e2
      simp only [Option.map_some', Option.some.injEq, Prod.mk.injEq] at e2
      obtain ⟨el2, eh2⟩ := e2
      rw [hdiIndices] at hd1 hd2
      have hmem1 := argminFirst_mem hd1
      have hmem2 := argminFirst_mem hd2
      obtain ⟨hi1, hj1, hm1⟩ := mem_qualifying.mp hmem1
      obtain ⟨hi2, hj2, hm2⟩ := mem_qualifying.mp hmem2
      have hmem2' : (i2, j2) ∈ qualifying (cumsum vals) p1 vals.length :=
        mem_qualifying.mpr ⟨hi2, hj2, lt_of_le_of_lt h12 hm2⟩
      have hminw := argminFirst_min hd1 (i2, j2) hmem2'
      rw [width, width] at hminw
      simp only at hminw
      have hq : (j1 : ℚ) - (i1 : ℚ) ≤ (j2 : ℚ) - (i2 : ℚ) := by
        exact_mod_cast hminw
      subst el1 eh1 el2 eh2
      rw [gridListQ_getD (by omega), gridListQ_getD (by omega),
        gridListQ_getD (by omega), gridListQ_getD (by omega)]
      linarith

/-- Witness for C8: the point mass at grid index 100 with
`p1 = p2 = 1/2`. -/
theorem C8_hdi_monotone_witness :
    (0 : ℚ) < 1/2 ∧ (1 : ℚ)/2 ≤ 1/2 ∧ (1 : ℚ)/2 < 1 ∧
      ((1 : ℚ) - 99/100 ≤ 1 - 99/100) := by
  have hE : highest_density_interval gridListQ (pointMassV 100) (1/2) =
      some (99/100, 1) := by
    rw [@hdi_pointMassV 100 (1/2) (by norm_num) (by norm_num)
      (by norm_num) (by norm_num)]
    norm_num
  exact ⟨by norm_num, le_refl _, by norm_num,
    C8_hdi_monotone (pointMassV 100) (1/2) (1/2) (99/100) 1 (99/100) 1
      (pointMassV_length (by norm_num)) pointMassV_nonneg pointMassV_sum
      (by norm_num) (le_refl _) (by norm_num) hE hE⟩

/-! ## Part 3: `get_posteriors`

The Python source:
```
def get_posteriors(sr, date, sigma=0.15):
    gamma = 1/np.random.normal(4, 0.2, len(r_t_range))
    lam = sr[:-1] * np.exp(gamma[:, None] * (r_t_range[:, None] - 1))
    likelihoods = pd.DataFrame(sps.poisson.pmf(sr[1:], lam), ...)
    process_matrix = sps.norm(loc=r_t_range, scale=sigma).pdf(r_t_range[:, None])
    process_matrix /= process_matrix.sum(axis=0)
    prior0 = np.ones_like(r_t_range)/len(r_t_range)
    prior0 /= prior0.sum()
    posteriors = ...; log_likelihood = 0.0
    for previous_day, current_day in zip(date[:-1], date[1:]):
        current_prior = process_matrix @ posteriors[previous_day]
        numerator = likelihoods[current_day] * current_prior
        denominator = np.sum(numerator)
        posteriors[current_day] = numerator/denominator
        log_likelihood += np.log(denominator)
    return posteriors, log_likelihood
```
The random draw `np.random.normal(4, 0.2, 1001)` is an explicit parameter
`draw` of the embedding; the source sets `gamma` to its elementwise
*reciprocal*.  The smoothed counts `sr` are the rounded non-negative
integers produced by `prepare_cases`.  Days are identified by position
(the `date` labels only name the columns).  The recursion is instrumented
to also return the list of per-day denominators, so that degeneracy can
be stated; there is no check on the denominator in the source, and the
division is performed unconditionally. -/

noncomputable section

/-- The grid `r_t_range = np.linspace(0, 10, 1001)` over `ℝ`. -/
def r_t_range (i : Fin 1001) : ℝ :=
  ((i : ℕ) : ℝ) * 10 / 1000

/-- Source line `gamma = 1/np.random.normal(4, 0.2, len(r_t_range))`: the elementwise
reciprocal of the per-run Normal sample `draw`. -/
def gammaVec (draw : Fin 1001 → ℝ) (i : Fin 1001) : ℝ :=
  1 / draw i

/-- Rate `lam[i] = prev * exp(gamma[i] * (r_i - 1))` for a day whose previous
smoothed count is `prev`. -/
def lam (draw : Fin 1001 → ℝ) (prev : ℕ) (i : Fin 1001) : ℝ :=
  (prev : ℝ) * Real.exp (gammaVec draw i * (r_t_range i - 1))

/-- Poisson mass `scipy.stats.poisson.pmf k μ = μ^k * exp(-μ) / k!`. -/
def poissonPMF (k : ℕ) (μ : ℝ) : ℝ :=
  μ ^ k * Real.exp (-μ) / (Nat.factorial k : ℝ)

/-- The likelihood entry `sps.poisson.pmf(sr[1:], lam)` for one day
transition (previous count `prev`, observed next count `next`) and one
grid point. -/
def likelihood (draw : Fin 1001 → ℝ) (prev next : ℕ) (i : Fin 1001) : ℝ :=
  poissonPMF next (lam draw prev i)

/-- The likelihood formula as the spec words it, with `γ` being the
Normal draw itself rather than its reciprocal.  Stated only to compare
against the source's `likelihood`. -/
def specLikelihood (draw : Fin 1001 → ℝ) (prev next : ℕ) (i : Fin 1001) : ℝ :=
  poissonPMF next ((prev : ℝ) * Real.exp (draw i * (r_t_range i - 1)))

/-- Gaussian density `scipy.stats.norm(loc=μ, scale=σ).pdf x`. -/
def normpdf (μ σ x : ℝ) : ℝ :=
  Real.exp (-((x - μ) ^ 2 / (2 * σ ^ 2))) / (σ * Real.sqrt (2 * Real.pi))

/-- Entry `process_matrix[i][j]` before normalization: the Gaussian density
with location `r_j` and scale `sigma` evaluated at `r_i`. -/
def process_matrix_raw (σ : ℝ) (i j : Fin 1001) : ℝ :=
  normpdf (r_t_range j) σ (r_t_range i)

/-- Normalization `process_matrix /= process_matrix.sum(axis=0)`: every entry of column
`j` is divided by that column's sum. -/
def process_matrix (σ : ℝ) (i j : Fin 1001) : ℝ :=
  process_matrix_raw σ i j / (∑ i2 : Fin 1001, process_matrix_raw σ i2 j)

/-- Source lines `prior0 = np.ones_like(r_t_range)/len(r_t_range); prior0 /= prior0.sum()`. -/
def prior0 : Fin 1001 → ℝ :=
  fun _ => ((1 : ℝ) / 1001) / (∑ _j : Fin 1001, (1 : ℝ) / 1001)

/-- Step (5a): `current_prior = process_matrix @ posteriors[previous_day]`. -/
def current_prior (σ : ℝ) (post : Fin 1001 → ℝ) (i : Fin 1001) : ℝ :=
  ∑ j : Fin 1001, process_matrix σ i j * post j

/-- Step (5b): `numerator = likelihoods[current_day] * current_prior`. -/
def bayesNumerator (σ : ℝ) (draw : Fin 1001 → ℝ) (prev next : ℕ)
    (post : Fin 1001 → ℝ) (i : Fin 1001) : ℝ :=
  likelihood draw prev next i * current_prior σ post i

/-- Step (5c): `denominator = np.sum(numerator)`. -/
def bayesDenominator (σ : ℝ) (draw : Fin 1001 → ℝ) (prev next : ℕ)
    (post : Fin 1001 → ℝ) : ℝ :=
  ∑ i : Fin 1001, bayesNumerator σ draw prev next post i

/-- One iteration of step (5): predict, update, and normalize by dividing
by the denominator, unconditionally (`posteriors[current_day] =
numerator/denominator`).  Returns the new posterior column and the
denominator. -/
def bayesStep (σ : ℝ) (draw : Fin 1001 → ℝ) (prev next : ℕ)
    (post : Fin 1001 → ℝ) : (Fin 1001 → ℝ) × ℝ :=
  (fun i => bayesNumerator σ draw prev next post i /
      bayesDenominator σ draw prev next post,
    bayesDenominator σ draw prev next post)

/-- The day-by-day recursion of step (5): the per-day posterior columns
after the first day, the per-day denominators, and the accumulated
log-likelihood `Σ log(denominator)`. -/
def runFilter (σ : ℝ) (draw : Fin 1001 → ℝ) :
    (Fin 1001 → ℝ) → ℕ → List ℕ → List (Fin 1001 → ℝ) × List ℝ × ℝ
  | _post, _prev, [] => ([], [], 0)
  | post, prev, next :: rest =>
    let step := bayesStep σ draw prev next post
    let tailResult := runFilter σ draw step.1 next rest
    (step.1 :: tailResult.1, step.2 :: tailResult.2.1,
      Real.log step.2 + tailResult.2.2)

/-- Embedding of `get_posteriors(sr, date, sigma)`: `none` when `sr` is empty (the
source indexes `date[0]` there); otherwise the per-day posterior columns
(the first being `prior0`) and the accumulated log-likelihood. -/
def get_posteriors (σ : ℝ) (draw : Fin 1001 → ℝ) (sr : List ℕ) :
    Option (List (Fin 1001 → ℝ) × ℝ) :=
  match sr with
  | [] => none
  | first :: rest =>
    let r := runFilter σ draw prior0 first rest
    some (prior0 :: r.1, r.2.2)

/-- The per-day normalizing denominators of a run. -/
def denominators (σ : ℝ) (draw : Fin 1001 → ℝ) (sr : List ℕ) : List ℝ :=
  match sr with
  | [] => []
  | first :: rest => (runFilter σ draw prior0 first rest).2.1

end

/-! ## Helper lemmas: the filter pieces -/

theorem runFilter_nil (σ : ℝ) (draw : Fin 1001 → ℝ) (post : Fin 1001 → ℝ)
    (prev : ℕ) : runFilter σ draw post prev [] = ([], [], 0) :=
  rfl

theorem runFilter_cons (σ : ℝ) (draw : Fin 1001 → ℝ) (post : Fin 1001 → ℝ)
    (prev next : ℕ) (rest : List ℕ) :
    runFilter σ draw post prev (next :: rest) =
      ((bayesStep σ draw prev next post).1 ::
          (runFilter σ draw (bayesStep σ draw prev next post).1 next rest).1,
        (bayesStep σ draw prev next post).2 ::
          (runFilter σ draw (bayesStep σ draw prev next post).1 next rest).2.1,
        Real.log (bayesStep σ draw prev next post).2 +
          (runFilter σ draw (bayesStep σ draw prev next post).1 next rest).2.2) :=
  rfl

theorem sum_univ_fin1001_const : (∑ _j : Fin 1001, (1 : ℝ) / 1001) = 1 := by
  rw [Finset.sum_const, Finset.card_univ, Fintype.card_fin, nsmul_eq_mul]
  norm_num

theorem prior0_eq : prior0 = fun _ => (1 : ℝ) / 1001 := by
  funext i
  rw [prior0, sum_univ_fin1001_const, div_one]

theorem prior0_pos (i : Fin 1001) : 0 < prior0 i := by
  rw [prior0_eq]
  norm_num

theorem sum_prior0 : (∑ i : Fin 1001, prior0 i) = 1 := by
  rw [prior0_eq]
  exact sum_univ_fin1001_const

theorem normpdf_pos {μ σ x : ℝ} (hσ : 0 < σ) : 0 < normpdf μ σ x :=
  div_pos (Real.exp_pos _)
    (mul_pos hσ (Real.sqrt_pos.mpr (by positivity)))

theorem process_matrix_raw_pos {σ : ℝ} (hσ : 0 < σ) (i j : Fin 1001) :
    0 < process_matrix_raw σ i j :=
  normpdf_pos hσ

theorem colsum_pos {σ : ℝ} (hσ : 0 < σ) (j : Fin 1001) :
    0 < ∑ i2 : Fin 1001, process_matrix_raw σ i2 j :=
  Finset.sum_pos (fun i _ => process_matrix_raw_pos hσ i j)
    Finset.univ_nonempty

theorem process_matrix_pos {σ : ℝ} (hσ : 0 < σ) (i j : Fin 1001) :
    0 < process_matrix σ i j :=
  div_pos (process_matrix_raw_pos hσ i j) (colsum_pos hσ j)

theorem process_matrix_col_sum {σ : ℝ} (hσ : 0 < σ) (j : Fin 1001) :
    (∑ i : Fin 1001, process_matrix σ i j) = 1 := by
  simp only [process_matrix]
  rw [← Finset.sum_div]
  exact div_self (ne_of_gt (colsum_pos hσ j))

theorem current_prior_nonneg {σ : ℝ} (hσ : 0 < σ) {post : Fin 1001 → ℝ}
    (hpost : ∀ j, 0 ≤ post j) (i : Fin 1001) :
    0 ≤ current_prior σ post i :=
  Finset.sum_nonneg (fun j _ =>
    mul_nonneg (le_of_lt (process_matrix_pos hσ i j)) (hpost j))

theorem current_prior_pos {σ : ℝ} (hσ : 0 < σ) {post : Fin 1001 → ℝ}
    (hpost : ∀ j, 0 < post j) (i : Fin 1001) :
    0 < current_prior σ post i :=
  Finset.sum_pos (fun j _ =>
    mul_pos (process_matrix_pos hσ i j) (hpost j)) Finset.univ_nonempty

theorem lam_nonneg (draw : Fin 1001 → ℝ) (prev : ℕ) (i : Fin 1001) :
    0 ≤ lam draw prev i :=
  mul_nonneg (Nat.cast_nonneg prev) (le_of_lt (Real.exp_pos _))

theorem lam_pos {draw : Fin 1001 → ℝ} {prev : ℕ} (h : 0 < prev)
    (i : Fin 1001) : 0 < lam draw prev i :=
  mul_pos (by exact_mod_cast h) (Real.exp_pos _)

theorem poissonPMF_nonneg {k : ℕ} {μ : ℝ} (h : 0 ≤ μ) :
    0 ≤ poissonPMF k μ :=
  div_nonneg (mul_nonneg (pow_nonneg h k) (le_of_lt (Real.exp_pos _)))
    (Nat.cast_nonneg _)

theorem poissonPMF_pos {k : ℕ} {μ : ℝ} (h : 0 < μ) : 0 < poissonPMF k μ :=
  div_pos (mul_pos (pow_pos h k) (Real.exp_pos _))
    (by exact_mod_cast Nat.factorial_pos k)

theorem poissonPMF_zero_count (μ : ℝ) : poissonPMF 0 μ = Real.exp (-μ) := by
  simp [poissonPMF]

theorem poissonPMF_zero_rate {k : ℕ} (h : k ≠ 0) : poissonPMF k 0 = 0 := by
  simp [poissonPMF, zero_pow h]

theorem likelihood_nonneg (draw : Fin 1001 → ℝ) (prev next : ℕ)
    (i : Fin 1001) : 0 ≤ likelihood draw prev next i :=
  poissonPMF_nonneg (lam_nonneg draw prev i)

theorem likelihood_zero_prev {draw : Fin 1001 → ℝ} {next : ℕ} (h : next ≠ 0)
    (i : Fin 1001) : likelihood draw 0 next i = 0 := by
  have hlam : lam draw 0 i = 0 := by
    simp [lam]
  rw [likelihood, hlam, poissonPMF_zero_rate h]

/-- A day with previous count 0 and a positive observed next count zeroes
every likelihood entry, hence every numerator, the denominator, and (by
division) the produced posterior column: the source divides anyway. -/
theorem bayesStep_zero_prev {σ : ℝ} {draw : Fin 1001 → ℝ} {next : ℕ}
    (h : next ≠ 0) (post : Fin 1001 → ℝ) :
    (bayesStep σ draw 0 next post).1 = (fun _ => 0) ∧
      (bayesStep σ draw 0 next post).2 = 0 := by
  constructor
  · funext i
    simp only [bayesStep, bayesNumerator]
    rw [likelihood_zero_prev h, zero_mul, zero_div]
  · simp only [bayesStep, bayesDenominator]
    exact Finset.sum_eq_zero (fun i _ => by
      rw [bayesNumerator, likelihood_zero_prev h, zero_mul])

theorem bayesStep_nonneg {σ : ℝ} {draw : Fin 1001 → ℝ} {prev next : ℕ}
    {post : Fin 1001 → ℝ} (hσ : 0 < σ) (hpost : ∀ j, 0 ≤ post j)
    (i : Fin 1001) : 0 ≤ (bayesStep σ draw prev next post).1 i := by
  simp only [bayesStep]
  have hden : 0 ≤ bayesDenominator σ draw prev next post :=
    Finset.sum_nonneg (fun i2 _ =>
      mul_nonneg (likelihood_nonneg draw prev next i2)
        (current_prior_nonneg hσ hpost i2))
  exact div_nonneg
    (mul_nonneg (likelihood_nonneg draw prev next i)
      (current_prior_nonneg hσ hpost i)) hden

theorem bayesStep_sum_one {σ : ℝ} {draw : Fin 1001 → ℝ} {prev next : ℕ}
    {post : Fin 1001 → ℝ} (hden : 0 < (bayesStep σ draw prev next post).2) :
    (∑ i : Fin 1001, (bayesStep σ draw prev next post).1 i) = 1 := by
  simp only [bayesStep] at hden ⊢
  rw [← Finset.sum_div]
  exact div_self (ne_of_gt hden)

/-- Invariant of the recursion: if the input column is non-negative and
every denominator along the run is positive, every produced column is
non-negative and sums to 1. -/
theorem runFilter_cols {σ : ℝ} (draw : Fin 1001 → ℝ) (hσ : 0 < σ) :
    ∀ (rest : List ℕ) (post : Fin 1001 → ℝ) (prev : ℕ),
      (∀ i, 0 ≤ post i) →
      (∀ d ∈ (runFilter σ draw post prev rest).2.1, 0 < d) →
      ∀ c ∈ (runFilter σ draw post prev rest).1,
        (∀ i, 0 ≤ c i) ∧ (∑ i : Fin 1001, c i) = 1 := by
  intro rest
  induction rest with
  | nil =>
    intro post prev _ _ c hc
    rw [runFilter_nil] at hc
    exact absurd hc (List.not_mem_nil c)
  | cons next rest ih =>
    intro post prev hpost hdens c hc
    rw [runFilter_cons] at hc hdens
    have hden : 0 < (bayesStep σ draw prev next post).2 :=
      hdens _ (List.mem_cons_self _ _)
    have hstep_nonneg := @bayesStep_nonneg σ draw prev next post hσ hpost
    rcases List.mem_cons.mp hc with hc | hc
    · subst hc
      exact ⟨hstep_nonneg, bayesStep_sum_one hden⟩
    · exact ih (bayesStep σ draw prev next post).1 next hstep_nonneg
        (fun d hd => hdens d (List.mem_cons_of_mem _ hd)) c hc

theorem get_posteriors_nil (σ : ℝ) (draw : Fin 1001 → ℝ) :
    get_posteriors σ draw [] = none :=
  rfl

theorem get_posteriors_cons (σ : ℝ) (draw : Fin 1001 → ℝ) (first : ℕ)
    (rest : List ℕ) :
    get_posteriors σ draw (first :: rest) =
      some (prior0 :: (runFilter σ draw prior0 first rest).1,
        (runFilter σ draw prior0 first rest).2.2) :=
  rfl

theorem denominators_cons (σ : ℝ) (draw : Fin 1001 → ℝ) (first : ℕ)
    (rest : List ℕ) :
    denominators σ draw (first :: rest) =
      (runFilter σ draw prior0 first rest).2.1 :=
  rfl

theorem poissonPMF_one (μ : ℝ) : poissonPMF 1 μ = μ * Real.exp (-μ) := by
  simp [poissonPMF]

theorem poissonPMF_zero_count_pos (μ : ℝ) : 0 < poissonPMF 0 μ := by
  rw [poissonPMF_zero_count]
  exact Real.exp_pos _

/-! ## Claim theorems: C2, C3, C7, C9, C10 -/

/-- Claim C10 (confirmed): each column of the normalized process matrix
sums to 1, and consequently the prediction step preserves total
probability mass: for every vector `v` over the grid, the entries of
`process_matrix @ v` (the `current_prior`) sum to the same total as the
entries of `v` — the prediction step alone never needs renormalizing. -/
theorem C10_process_matrix_mass (σ : ℝ) (hσ : 0 < σ) :
    (∀ j : Fin 1001, (∑ i : Fin 1001, process_matrix σ i j) = 1) ∧
      (∀ v : Fin 1001 → ℝ,
        (∑ i : Fin 1001, current_prior σ v i) = ∑ j : Fin 1001, v j) := by
  refine ⟨process_matrix_col_sum hσ, ?_⟩
  intro v
  simp only [current_prior]
  rw [Finset.sum_comm]
  refine Finset.sum_congr rfl (fun j _ => ?_)
  rw [← Finset.sum_mul, process_matrix_col_sum hσ, one_mul]

/-- Witness for C10 at the run's `sigma = 0.15`. -/
theorem C10_process_matrix_mass_witness :
    (0 : ℝ) < 3/20 ∧
      (∀ j : Fin 1001, (∑ i : Fin 1001, process_matrix (3/20) i j) = 1) ∧
      (∀ v : Fin 1001 → ℝ,
        (∑ i : Fin 1001, current_prior (3/20) v i) = ∑ j : Fin 1001, v j) :=
  ⟨by norm_num, (C10_process_matrix_mass (3/20) (by norm_num)).1,
    (C10_process_matrix_mass (3/20) (by norm_num)).2⟩

/-- Claim C2 counterexample: on the smoothed series `[0, 5]` the only day
pair has normalizing denominator 0 (previous count 0 gives rate 0, so a
positive next count has zero Poisson likelihood at every grid point), yet
`get_posteriors` does not fail: it divides by the zero denominator and
returns a full table whose second column is identically zero. -/
theorem C2_counterexample :
    denominators (3/20) (fun _ : Fin 1001 => (4 : ℝ)) [0, 5] = [0] ∧
      get_posteriors (3/20) (fun _ : Fin 1001 => (4 : ℝ)) [0, 5] =
        some ([prior0, fun _ => 0], 0) := by
  obtain ⟨h1, h2⟩ := @bayesStep_zero_prev (3/20)
    (fun _ : Fin 1001 => (4 : ℝ)) 5 (by norm_num) prior0
  constructor
  · rw [denominators_cons, runFilter_cons, runFilter_nil]
    simp only [h2]
  · rw [get_posteriors_cons, runFilter_cons, runFilter_nil]
    simp only [h1, h2, Real.log_zero, add_zero]

/-- Claim C2 amended: `get_posteriors` performs no degeneracy check: the
run always completes with a posterior column for every day, and a step
whose denominator is zero still produces a column (identically zero by
the unconditional division) instead of failing. -/
theorem C2_amended :
    (∀ (σ : ℝ) (draw : Fin 1001 → ℝ) (first : ℕ) (rest : List ℕ),
      ∃ out, get_posteriors σ draw (first :: rest) = some out ∧
        out.1.length = rest.length + 1) ∧
    (∀ (σ : ℝ) (draw : Fin 1001 → ℝ) (prev next : ℕ)
        (post : Fin 1001 → ℝ),
      (bayesStep σ draw prev next post).2 = 0 →
      (bayesStep σ draw prev next post).1 = fun _ => 0) := by
  constructor
  · intro σ draw first rest
    refine ⟨_, rfl, ?_⟩
    have hlen : ∀ (rest2 : List ℕ) (post : Fin 1001 → ℝ) (prev : ℕ),
        (runFilter σ draw post prev rest2).1.length = rest2.length := by
      intro rest2
      induction rest2 with
      | nil =>
        intro post prev
        rw [runFilter_nil]
        rfl
      | cons n r ih =>
        intro post prev
        rw [runFilter_cons]
        simp [ih]
    simp [hlen]
  · intro σ draw prev next post h
    funext i
    simp only [bayesStep] at h ⊢
    rw [h, div_zero]

/-- Witness for the amended C2: the zero-denominator step on `[0, 5]`. -/
theorem C2_amended_witness :
    ((bayesStep (3/20) (fun _ : Fin 1001 => (4 : ℝ)) 0 5 prior0).2 = 0) ∧
      ((bayesStep (3/20) (fun _ : Fin 1001 => (4 : ℝ)) 0 5 prior0).1 =
        fun _ => 0) ∧
      (∃ out, get_posteriors (3/20) (fun _ : Fin 1001 => (4 : ℝ)) [0, 5] =
        some out ∧ out.1.length = 1 + 1) := by
  have hz := @bayesStep_zero_prev (3/20)
    (fun _ : Fin 1001 => (4 : ℝ)) 5 (by norm_num) prior0
  exact ⟨hz.2, C2_amended.2 (3/20) _ 0 5 prior0 hz.2,
    C2_amended.1 (3/20) _ 0 [5]⟩

/-- Claim C3 counterexample: `get_posteriors` completes on the smoothed
series `[0, 5]` (zero denominator on the only day pair), yet the second
day's column sums to 0, not 1: the table is not columnwise a PMF even
though the run completed. -/
theorem C3_counterexample :
    (get_posteriors (3/20) (fun _ : Fin 1001 => (4 : ℝ)) [0, 5]).map
        (fun out => out.1.map (fun c => ∑ i : Fin 1001, c i)) =
      some [1, 0] ∧ (0 : ℝ) ≠ 1 := by
  obtain ⟨h1, _h2⟩ := @bayesStep_zero_prev (3/20)
    (fun _ : Fin 1001 => (4 : ℝ)) 5 (by norm_num) prior0
  refine ⟨?_, by norm_num⟩
  rw [get_posteriors_cons, runFilter_cons, runFilter_nil]
  simp only [h1, Option.map_some', List.map_cons, List.map_nil]
  rw [sum_prior0]
  simp

/-- Claim C3 amended: whenever `σ > 0` and every per-day normalizing
denominator of the run is positive, every column of the returned table is
a PMF (entries non-negative, summing exactly to 1 in exact arithmetic),
and the first column is the uniform prior `1/1001`. -/
theorem C3_amended (σ : ℝ) (draw : Fin 1001 → ℝ) (sr : List ℕ)
    (out : List (Fin 1001 → ℝ) × ℝ)
    (hσ : 0 < σ)
    (hden : ∀ d ∈ denominators σ draw sr, 0 < d)
    (hout : get_posteriors σ draw sr = some out) :
    (∀ c ∈ out.1, (∀ i, 0 ≤ c i) ∧ (∑ i : Fin 1001, c i) = 1) ∧
      out.1.head? = some (fun _ => (1 : ℝ) / 1001) := by
  cases sr with
  | nil =>
    rw [get_posteriors_nil] at hout
    exact Option.noConfusion hout
  | cons first rest =>
    rw [get_posteriors_cons] at hout
    have hout2 := Option.some.inj hout
    rw [denominators_cons] at hden
    subst hout2
    constructor
    · intro c hc
      rcases List.mem_cons.mp hc with hc | hc
      · subst hc
        exact ⟨fun i => le_of_lt (prior0_pos i), sum_prior0⟩
      · exact runFilter_cols draw hσ rest prior0 first
          (fun i => le_of_lt (prior0_pos i)) hden c hc
    · rw [List.head?_cons, prior0_eq]

set_option maxRecDepth 8000 in
/-- Witness for the amended C3: series `[1, 0]` (next count 0 has
positive Poisson likelihood everywhere, so the denominator is
positive). -/
theorem C3_amended_witness :
    (0 : ℝ) < 3/20 ∧
      (∀ d ∈ denominators (3/20) (fun _ : Fin 1001 => (4 : ℝ)) [1, 0],
        0 < d) ∧
      ((∀ c ∈ (prior0 ::
          (runFilter (3/20) (fun _ : Fin 1001 => (4 : ℝ)) prior0 1 [0]).1),
          (∀ i, 0 ≤ c i) ∧ (∑ i : Fin 1001, c i) = 1) ∧
        (prior0 ::
          (runFilter (3/20) (fun _ : Fin 1001 => (4 : ℝ)) prior0 1 [0]).1).head? =
          some (fun _ => (1 : ℝ) / 1001)) := by
  have hσ : (0 : ℝ) < 3/20 := by norm_num
  have hden : ∀ d ∈ denominators (3/20) (fun _ : Fin 1001 => (4 : ℝ)) [1, 0],
      0 < d := by
    intro d hd
    rw [denominators_cons, runFilter_cons, runFilter_nil] at hd
    have hd2 : d = (bayesStep (3/20) (fun _ : Fin 1001 => (4 : ℝ)) 1 0 prior0).2 :=
      List.mem_singleton.mp hd
    rw [hd2]
    simp only [bayesStep, bayesDenominator, bayesNumerator, likelihood]
    refine Finset.sum_pos (fun i _ => ?_) Finset.univ_nonempty
    exact mul_pos (poissonPMF_zero_count_pos _)
      (current_prior_pos hσ prior0_pos i)
  refine ⟨hσ, hden, ?_⟩
  exact C3_amended (3/20) (fun _ : Fin 1001 => (4 : ℝ)) [1, 0]
    (prior0 :: (runFilter (3/20) (fun _ : Fin 1001 => (4 : ℝ)) prior0 1 [0]).1,
      (runFilter (3/20) (fun _ : Fin 1001 => (4 : ℝ)) prior0 1 [0]).2.2)
    hσ hden (get_posteriors_cons (3/20) (fun _ : Fin 1001 => (4 : ℝ)) 1 [0])

/-- Claim C7 counterexample: with the per-run sample `draw ≡ 4` (the
Normal mean), the source's likelihood at grid point 200 (r = 2.0),
previous count 1 and next count 0 is `exp(-exp(1/4))`, whereas the
claim's formula with `γ` equal to the Normal draw itself would give
`exp(-exp(4))`: the source uses the reciprocal `1/draw` as `γ`. -/
theorem C7_counterexample :
    likelihood (fun _ : Fin 1001 => (4 : ℝ)) 1 0 ⟨200, by norm_num⟩ ≠
      specLikelihood (fun _ : Fin 1001 => (4 : ℝ)) 1 0 ⟨200, by norm_num⟩ := by
  have hr : r_t_range ⟨200, by norm_num⟩ = 2 := by
    rw [r_t_range]
    norm_num
  simp only [likelihood, specLikelihood, lam, gammaVec, hr,
    poissonPMF_zero_count, Nat.cast_one, one_mul]
  intro h
  rw [Real.exp_eq_exp, neg_inj, Real.exp_eq_exp] at h
  norm_num at h

/-- Claim C7 amended: the per-day, per-grid-point likelihood equals the
Poisson pmf at the observed next count with rate
`λ = prev * exp(γ_i * (r_i - 1))`, where `γ` is the elementwise
*reciprocal* of the vector sampled once per run from Normal(4.0, 0.2);
the same `γ` (hence the same likelihood table) is used for every day
pair, and the update numerator multiplies exactly this likelihood with
the predicted prior. -/
theorem C7_likelihood_formula (σ : ℝ) (draw : Fin 1001 → ℝ)
    (prev next : ℕ) (post : Fin 1001 → ℝ) (i : Fin 1001) :
    likelihood draw prev next i =
      poissonPMF next
        ((prev : ℝ) * Real.exp ((draw i)⁻¹ * (r_t_range i - 1))) ∧
    bayesNumerator σ draw prev next post i =
      poissonPMF next
          ((prev : ℝ) * Real.exp ((draw i)⁻¹ * (r_t_range i - 1))) *
        current_prior σ post i := by
  have h : likelihood draw prev next i =
      poissonPMF next
        ((prev : ℝ) * Real.exp ((draw i)⁻¹ * (r_t_range i - 1))) := by
    rw [likelihood, lam, gammaVec, one_div]
  exact ⟨h, by rw [bayesNumerator, h]⟩

/-- Claim C9 counterexample: two runs of `get_posteriors` on the
identical smoothed series `[1, 1]`, identical position labels, and
identical `sigma = 0.15`, but with two different per-run random samples
(both in the support of Normal(4, 0.2): one constantly 4 shifted to 1 for
readability — constant 1, and one equal to it except the value 1/2 at
grid index 200), return different outputs: the estimator is not
deterministic across runs because `gamma` is freshly sampled inside each
call. -/
theorem C9_counterexample :
    get_posteriors (3/20) (fun _ : Fin 1001 => (1 : ℝ)) [1, 1] ≠
      get_posteriors (3/20)
        (fun i : Fin 1001 => if (i : ℕ) = 200 then (1 : ℝ)/2 else 1) [1, 1] := by
  set d1 : Fin 1001 → ℝ := fun _ => 1 with hd1
  set d2 : Fin 1001 → ℝ := fun i => if (i : ℕ) = 200 then (1 : ℝ)/2 else 1
    with hd2
  intro h
  rw [get_posteriors_cons, get_posteriors_cons, runFilter_cons, runFilter_cons,
    runFilter_nil, runFilter_nil] at h
  simp only [Option.some.injEq, Prod.mk.injEq, List.cons.injEq] at h
  have hcol : (bayesStep (3/20) d1 1 1 prior0).1 =
      (bayesStep (3/20) d2 1 1 prior0).1 := h.1.2.1
  have hσ : (0 : ℝ) < 3/20 := by norm_num
  have hcp : ∀ i, 0 < current_prior (3/20) prior0 i :=
    current_prior_pos hσ prior0_pos
  have hr100 : r_t_range ⟨100, by norm_num⟩ = 1 := by
    rw [r_t_range]
    norm_num
  have hr200 : r_t_range ⟨200, by norm_num⟩ = 2 := by
    rw [r_t_range]
    norm_num
  have hg1 : ∀ i, gammaVec d1 i = 1 := by
    intro i
    rw [gammaVec, hd1]
    norm_num
  have hg2a : gammaVec d2 ⟨100, by norm_num⟩ = 1 := by
    rw [gammaVec, hd2]
    norm_num
  have hg2b : gammaVec d2 ⟨200, by norm_num⟩ = 2 := by
    rw [gammaVec, hd2]
    norm_num
  have hL1a : likelihood d1 1 1 ⟨100, by norm_num⟩ = 1 * Real.exp (-1) := by
    rw [likelihood, lam, hg1, hr100, poissonPMF_one]
    norm_num
  have hL2a : likelihood d2 1 1 ⟨100, by norm_num⟩ = 1 * Real.exp (-1) := by
    rw [likelihood, lam, hg2a, hr100, poissonPMF_one]
    norm_num
  have hL1b : likelihood d1 1 1 ⟨200, by norm_num⟩ =
      Real.exp 1 * Real.exp (-Real.exp 1) := by
    rw [likelihood, lam, hg1, hr200, poissonPMF_one]
    norm_num
  have hL2b : likelihood d2 1 1 ⟨200, by norm_num⟩ =
      Real.exp 2 * Real.exp (-Real.exp 2) := by
    rw [likelihood, lam, hg2b, hr200, poissonPMF_one]
    norm_num
  have hLpos : ∀ (d : Fin 1001 → ℝ) (i : Fin 1001),
      0 < likelihood d 1 1 i := by
    intro d i
    exact poissonPMF_pos (lam_pos (by norm_num) i)
  have hD1 : 0 < bayesDenominator (3/20) d1 1 1 prior0 := by
    simp only [bayesDenominator, bayesNumerator]
    exact Finset.sum_pos
      (fun i _ => mul_pos (hLpos d1 i) (hcp i)) Finset.univ_nonempty
  have hD2 : 0 < bayesDenominator (3/20) d2 1 1 prior0 := by
    simp only [bayesDenominator, bayesNumerator]
    exact Finset.sum_pos
      (fun i _ => mul_pos (hLpos d2 i) (hcp i)) Finset.univ_nonempty
  have h100 := congrFun hcol ⟨100, by norm_num⟩
  simp only [bayesStep, bayesNumerator] at h100
  rw [hL1a, hL2a] at h100
  have hDeq : bayesDenominator (3/20) d1 1 1 prior0 =
      bayesDenominator (3/20) d2 1 1 prior0 := by
    have hnum : (0 : ℝ) <
        1 * Real.exp (-1) * current_prior (3/20) prior0 ⟨100, by norm_num⟩ :=
      mul_pos (mul_pos one_pos (Real.exp_pos _)) (hcp _)
    rw [div_eq_div_iff (ne_of_gt hD1) (ne_of_gt hD2)] at h100
    exact (mul_left_cancel₀ (ne_of_gt hnum) h100).symm
  have h200 := congrFun hcol ⟨200, by norm_num⟩
  simp only [bayesStep, bayesNumerator] at h200
  rw [hL1b, hL2b, hDeq] at h200
  have hLeq : Real.exp 1 * Real.exp (-Real.exp 1) =
      Real.exp 2 * Real.exp (-Real.exp 2) := by
    have hc := hcp ⟨200, by norm_num⟩
    rw [div_left_inj' (ne_of_gt hD2)] at h200
    exact mul_right_cancel₀ (ne_of_gt hc) h200
  rw [← Real.exp_add, ← Real.exp_add, Real.exp_eq_exp] at hLeq
  have he1 : (2.7182818283 : ℝ) < Real.exp 1 := Real.exp_one_gt_d9
  have he2 : Real.exp 2 = Real.exp 1 * Real.exp 1 := by
    rw [← Real.exp_add]
    norm_num
  nlinarith [he1, he2, hLeq]

/-- Claim C9 amended: `get_posteriors` is deterministic *given* the
per-run `gamma` sample: identical smoothed series, `sigma`, and sample
yield identical outputs (runs differing only in the fresh random sample
can differ, as the counterexample shows). -/
theorem C9_amended (σ : ℝ) (d1 d2 : Fin 1001 → ℝ) (sr : List ℕ)
    (h : d1 = d2) :
    get_posteriors σ d1 sr = get_posteriors σ d2 sr := by
  rw [h]

/-- Witness for the amended C9: equal draws, equal outputs. -/
theorem C9_amended_witness :
    ((fun _ : Fin 1001 => (4 : ℝ)) = (fun _ : Fin 1001 => (4 : ℝ))) ∧
      get_posteriors (3/20) (fun _ : Fin 1001 => (4 : ℝ)) [1, 1] =
        get_posteriors (3/20) (fun _ : Fin 1001 => (4 : ℝ)) [1, 1] :=
  ⟨rfl, C9_amended (3/20) (fun _ : Fin 1001 => (4 : ℝ))
    (fun _ : Fin 1001 => (4 : ℝ)) [1, 1] rfl⟩

end Restimator
